import Mathlib

/-!
# Formal model of the toroidal Game-of-Life engine (`src/lib.rs`)

A shallow embedding of the Rust/wasm engine.  Modelling conventions:

* Rust `u32` / wasm32 `usize` values are embedded as `Nat`; arithmetic that can
  wrap in the source is written with an explicit modulus `U32MOD = 2 ^ 32`
  (release-mode wrapping semantics).  Subtraction is wrapping subtraction.
  `x % n` for the source's `%` keeps `Nat` semantics; the source only ever
  evaluates it with a positive modulus in the situations the theorems cover
  (Rust would panic on a zero modulus).
* `fixedbitset::FixedBitSet` is modelled as its list of bits.  Its `Index`
  impl (`contains`) returns `false` for out-of-range reads, so `get` is total
  with default `false`; its `set` asserts `bit < length` and panics otherwise,
  so `set` returns an `Option` and `none` models the panic.  An operation of
  the engine that can panic therefore returns an `Option Universe`, and a
  `none` result means the operation terminated abnormally.
* `Math::random() < 0.5` draws from the host; `reset_random` takes the
  per-cell outcome of that comparison as an explicit function argument.
-/

set_option maxRecDepth 8000

/-- `2 ^ 32`, the modulus of `u32` / wasm32 `usize` arithmetic. -/
def U32MOD : Nat := 4294967296

/-- Wrapping `u32` addition. -/
def wadd (a b : Nat) : Nat := (a + b) % U32MOD

/-- Wrapping `u32` subtraction (for `a < U32MOD`, `b ≤ U32MOD`). -/
def wsub (a b : Nat) : Nat := (a + U32MOD - b) % U32MOD

/-- Model of `fixedbitset::FixedBitSet`: the stored bits, in order.
The packed `u32`-block representation is recovered by `as_slice` below;
bits of the last block beyond `length` are zero, which `get`'s `false`
default reproduces. -/
structure FixedBitSet where
  bits : List Bool
deriving DecidableEq, Repr

namespace FixedBitSet

/-- `FixedBitSet::with_capacity(n)`: `n` zero bits. -/
def with_capacity (n : Nat) : FixedBitSet := ⟨List.replicate n false⟩

/-- `len()`: the number of bits. -/
def len (s : FixedBitSet) : Nat := s.bits.length

/-- The `Index` impl / `contains`: reads return `false` out of range. -/
def get (s : FixedBitSet) (i : Nat) : Bool := s.bits.getD i false

/-- `set(bit, enabled)`: asserts `bit < length`, panicking otherwise;
`none` models the panic. -/
def set (s : FixedBitSet) (i : Nat) (b : Bool) : Option FixedBitSet :=
  if i < s.bits.length then some ⟨s.bits.set i b⟩ else none

/-- `set_range(.., false)`: clear every bit, keeping the length. -/
def set_range_false (s : FixedBitSet) : FixedBitSet :=
  ⟨List.replicate s.bits.length false⟩

/-- Value of the `j`-th 32-bit block of the packed representation. -/
def block (s : FixedBitSet) (j : Nat) : Nat :=
  (List.range 32).foldl (fun acc b => acc + (if s.get (32 * j + b) then 2 ^ b else 0)) 0

/-- `as_slice()`: the backing `u32` blocks, `⌈len/32⌉` of them. -/
def as_slice (s : FixedBitSet) : List Nat :=
  (List.range ((s.len + 31) / 32)).map s.block

/-- A sequence of single-bit writes threaded left to right, propagating the
panic of any out-of-range write.  The engine's write loops are instances. -/
def writeList (s : FixedBitSet) (ps : List (Nat × Bool)) : Option FixedBitSet :=
  ps.foldl (fun acc p => acc.bind fun t => t.set p.1 p.2) (some s)

theorem len_with_capacity (n : Nat) : (with_capacity n).len = n := by
  simp [with_capacity, len]

theorem len_set_range_false (s : FixedBitSet) : s.set_range_false.len = s.len := by
  simp [set_range_false, len]

theorem get_set_range_false (s : FixedBitSet) (i : Nat) :
    s.set_range_false.get i = false := by
  simp [set_range_false, get, List.getD]

theorem get_with_capacity (n i : Nat) : (with_capacity n).get i = false := by
  simpa [with_capacity, set_range_false, len] using
    get_set_range_false (with_capacity n) i

theorem set_eq_some_iff {s : FixedBitSet} {i : Nat} {b : Bool} :
    (∃ s', s.set i b = some s') ↔ i < s.len := by
  unfold set len
  by_cases h : i < s.bits.length <;> simp [h]

theorem set_eq_none_iff {s : FixedBitSet} {i : Nat} {b : Bool} :
    s.set i b = none ↔ s.len ≤ i := by
  unfold set len
  by_cases h : i < s.bits.length <;> simp [h] <;> omega

theorem len_of_set {s s' : FixedBitSet} {i : Nat} {b : Bool}
    (h : s.set i b = some s') : s'.len = s.len := by
  unfold set at h
  by_cases hi : i < s.bits.length
  · simp [hi] at h
    subst h
    simp [len]
  · simp [hi] at h

theorem get_of_set {s s' : FixedBitSet} {i : Nat} {b : Bool}
    (h : s.set i b = some s') (j : Nat) :
    s'.get j = if j = i then b else s.get j := by
  unfold set at h
  by_cases hi : i < s.bits.length
  · simp only [hi, if_true] at h
    injection h with h
    subst h
    unfold get
    by_cases hj : j = i
    · subst hj
      simp [List.getD, List.getElem?_set_self hi]
    · simp [List.getD, List.getElem?_set_ne (Ne.symm hj), hj]
  · simp [hi] at h

theorem writeList_nil (s : FixedBitSet) : s.writeList [] = some s := rfl

theorem writeList_none (ps : List (Nat × Bool)) :
    ps.foldl (fun acc p => acc.bind fun t => t.set p.1 p.2)
      (none : Option FixedBitSet) = none := by
  induction ps with
  | nil => rfl
  | cons p ps ih => simpa using ih

theorem writeList_cons (s : FixedBitSet) (p : Nat × Bool) (ps : List (Nat × Bool)) :
    s.writeList (p :: ps) = (s.set p.1 p.2).bind fun t => t.writeList ps := by
  unfold writeList
  rcases h : s.set p.1 p.2 with _ | t
  · simp [List.foldl_cons, h, writeList_none]
  · simp [List.foldl_cons, h]

theorem writeList_append (s : FixedBitSet) (l₁ l₂ : List (Nat × Bool)) :
    s.writeList (l₁ ++ l₂) = (s.writeList l₁).bind fun t => t.writeList l₂ := by
  induction l₁ generalizing s with
  | nil => simp [writeList_nil]
  | cons p l₁ ih =>
    rw [List.cons_append, writeList_cons, writeList_cons]
    rcases h : s.set p.1 p.2 with _ | t
    · simp
    · simp [ih]

theorem len_of_writeList {s s' : FixedBitSet} {ps : List (Nat × Bool)}
    (h : s.writeList ps = some s') : s'.len = s.len := by
  induction ps generalizing s with
  | nil => rw [writeList_nil] at h; injection h with h; rw [h]
  | cons p ps ih =>
    rw [writeList_cons] at h
    rcases hs : s.set p.1 p.2 with _ | t
    · rw [hs] at h; simp at h
    · rw [hs] at h
      simp only [Option.some_bind] at h
      exact (ih h).trans (len_of_set hs)

theorem writeList_isSome {s : FixedBitSet} {ps : List (Nat × Bool)}
    (h : ∀ p ∈ ps, p.1 < s.len) : ∃ s', s.writeList ps = some s' := by
  induction ps generalizing s with
  | nil => exact ⟨s, writeList_nil s⟩
  | cons p ps ih =>
    obtain ⟨t, ht⟩ := set_eq_some_iff.mpr (h p (List.mem_cons_self p ps))
    rw [writeList_cons, ht]
    simp only [Option.some_bind]
    exact ih fun q hq => (len_of_set ht).symm ▸ h q (List.mem_cons_of_mem p hq)

theorem get_writeList_not_mem {s s' : FixedBitSet} {ps : List (Nat × Bool)} {i : Nat}
    (h : s.writeList ps = some s') (hi : ∀ p ∈ ps, p.1 ≠ i) :
    s'.get i = s.get i := by
  induction ps generalizing s with
  | nil => rw [writeList_nil] at h; injection h with h; rw [h]
  | cons p ps ih =>
    rw [writeList_cons] at h
    rcases hs : s.set p.1 p.2 with _ | t
    · rw [hs] at h; simp at h
    · rw [hs] at h
      simp only [Option.some_bind] at h
      rw [ih h fun q hq => hi q (List.mem_cons_of_mem p hq)]
      rw [get_of_set hs]
      exact if_neg fun hip => hi p (List.mem_cons_self p ps) hip.symm

theorem get_writeList_last {s s' : FixedBitSet} {l₁ l₂ : List (Nat × Bool)}
    {i : Nat} {b : Bool}
    (h : s.writeList (l₁ ++ (i, b) :: l₂) = some s')
    (hl₂ : ∀ p ∈ l₂, p.1 ≠ i) :
    s'.get i = b := by
  rw [writeList_append] at h
  rcases h₁ : s.writeList l₁ with _ | t
  · rw [h₁] at h; simp at h
  · rw [h₁] at h
    simp only [Option.some_bind] at h
    rw [writeList_cons] at h
    rcases h₂ : t.set i b with _ | t'
    · rw [h₂] at h; simp at h
    · rw [h₂] at h
      simp only [Option.some_bind] at h
      rw [get_writeList_not_mem h hl₂, get_of_set h₂]
      simp

end FixedBitSet

/-- Wrapping `u32` multiplication. -/
def wmul (a b : Nat) : Nat := (a * b) % U32MOD

/-- The engine state (`pub struct Universe` in `src/lib.rs`). -/
structure Universe where
  width : Nat
  height : Nat
  cells : FixedBitSet
  temp_cells : FixedBitSet
deriving DecidableEq, Repr

namespace Universe

/-- `get_index`: `(row * self.width + col) as usize` (`u32` arithmetic;
wasm32 `usize` is 32 bits wide). -/
def get_index (u : Universe) (row col : Nat) : Nat :=
  wadd (wmul row u.width) col

/-- `get_row_index`: `(row * self.width) as usize`. -/
def get_row_index (u : Universe) (row : Nat) : Nat :=
  wmul row u.width

/-- `live_neighbor_count`: the number of alive cells among the eight
toroidally wrapped neighbours, read from `self.cells`. -/
def live_neighbor_count (u : Universe) (row column : Nat) : Nat :=
  let north := if row = 0 then wsub u.height 1 else wsub row 1
  let south := if row = wsub u.height 1 then 0 else wadd row 1
  let west := if column = 0 then wsub u.width 1 else wsub column 1
  let east := if column = wsub u.width 1 then 0 else wadd column 1
  let nw := u.get_index north west
  let n := u.get_index north column
  let ne := u.get_index north east
  let w := u.get_index row west
  let e := u.get_index row east
  let sw := u.get_index south west
  let s := u.get_index south column
  let se := u.get_index south east
  (u.cells.get nw).toNat + (u.cells.get n).toNat + (u.cells.get ne).toNat +
    (u.cells.get w).toNat + (u.cells.get e).toNat + (u.cells.get sw).toNat +
    (u.cells.get s).toNat + (u.cells.get se).toNat

/-- `set_cells`: set every listed `(row, col)` coordinate alive, in order. -/
def set_cells (u : Universe) (cells : List (Nat × Nat)) : Option Universe :=
  (cells.foldl (fun acc rc => acc.bind fun s => s.set (u.get_index rc.1 rc.2) true)
      (some u.cells)).map
    fun s => { u with cells := s }

/-- `set_cells`, but keeping the buffer as it stands when a listed coordinate
produces an out-of-range write: the heap state observable after the panic
(`&mut self` keeps all writes made before the failing one).  The `Bool` is
`true` iff the operation ran to completion. -/
def set_cells_trace (u : Universe) : List (Nat × Nat) → Universe × Bool
  | [] => (u, true)
  | rc :: rest =>
    match u.cells.set (u.get_index rc.1 rc.2) true with
    | some s => set_cells_trace { u with cells := s } rest
    | none => (u, false)

/-- `toggle_cell`, keeping the heap state observable after a panic: its single
write either lands or the assertion in `set` fires before anything is written,
leaving the buffer untouched.  The `Bool` is `true` iff it ran to completion. -/
def toggle_cell_trace (u : Universe) (row col : Nat) : Universe × Bool :=
  match u.cells.set (u.get_index row col) (!u.cells.get (u.get_index row col)) with
  | some s => ({ u with cells := s }, true)
  | none => (u, false)

/-- The `match (cell, live_neighbors)` transition rule inside `tick`,
with the source's arm order. -/
def next_cell (cell : Bool) (x : Nat) : Bool :=
  if cell = true ∧ x < 2 then false
  else if cell = true ∧ (x = 2 ∨ x = 3) then true
  else if cell = true ∧ 3 < x then false
  else if cell = false ∧ x = 3 then true
  else cell

/-- `tick`: clear the scratch buffer, write the next generation of every cell
into it reading only from `self.cells`, then `self.cells.clone_from(&self.temp_cells)`. -/
def tick (u : Universe) : Option Universe :=
  let temp0 := u.temp_cells.set_range_false
  let next :=
    (List.range u.height).foldl (fun acc row =>
      (List.range u.width).foldl (fun acc col =>
        acc.bind fun t =>
          t.set (u.get_index row col)
            (next_cell (u.cells.get (u.get_index row col))
              (u.live_neighbor_count row col)))
        acc)
      (some temp0)
  next.map fun t => { u with cells := t, temp_cells := t }

/-- `Universe::new()`: 256×256, cell `i` alive iff `i % 2 == 0 || i % 7 == 0`
(`size = (width * height) as usize`; the source's locals are inlined). -/
def new : Option Universe :=
  ((List.range (wmul 256 256)).foldl
      (fun acc i => acc.bind fun s => s.set i (i % 2 == 0 || i % 7 == 0))
      (some (FixedBitSet.with_capacity (wmul 256 256)))).map
    fun cells =>
      { width := 256, height := 256, cells := cells,
        temp_cells := FixedBitSet.with_capacity (wmul 256 256) }

/-- `set_width`: store the new width and replace `cells` by a cleared buffer of
`width * self.height` bits.  `temp_cells` is not touched. -/
def set_width (u : Universe) (width : Nat) : Universe :=
  { u with
    width := width
    cells := (FixedBitSet.with_capacity (wmul width u.height)).set_range_false }

/-- `set_height`: store the new height and replace `cells` by a cleared buffer
of `self.width * height` bits.  `temp_cells` is not touched. -/
def set_height (u : Universe) (height : Nat) : Universe :=
  { u with
    height := height
    cells := (FixedBitSet.with_capacity (wmul u.width height)).set_range_false }

/-- `toggle_cell`. -/
def toggle_cell (u : Universe) (row col : Nat) : Option Universe :=
  (u.cells.set (u.get_index row col) (!u.cells.get (u.get_index row col))).map
    fun s => { u with cells := s }

/-- `reset_clear`. -/
def reset_clear (u : Universe) : Universe :=
  { u with cells := u.cells.set_range_false }

/-- `reset_random`: `rnd row col` is the outcome of the host's
`Math::random() < 0.5` draw for that iteration. -/
def reset_random (u : Universe) (rnd : Nat → Nat → Bool) : Option Universe :=
  ((List.range u.height).foldl (fun acc row =>
      (List.range u.width).foldl (fun acc col =>
        acc.bind fun s => s.set (u.get_index row col) (rnd row col)) acc)
    (some u.cells)).map fun s => { u with cells := s }

/-- `insert_glider_at_pos`: stamp the 3×3 footprint around `(row, col)`. -/
def insert_glider_at_pos (u : Universe) (row col : Nat) : Option Universe :=
  ([wsub u.height 1, 0, 1].foldl (fun acc d_row =>
      [wsub u.width 1, 0, 1].foldl (fun acc d_col =>
        acc.bind fun s =>
          let cell_row := wadd d_row row % u.height
          let cell_col := wadd d_col col % u.width
          let idx := u.get_index cell_row cell_col
          let is_alive := decide ((d_row = wsub u.height 1 ∧ d_col = 0) ∨
            (d_row = 0 ∧ d_col = wsub u.width 1) ∨ d_row = 1)
          s.set idx is_alive) acc)
    (some u.cells)).map fun s => { u with cells := s }

/-- The `hor_row` template row of `insert_pulsar_at_pos`. -/
def hor_row : List Bool :=
  [false, false, true, true, true, false, false, false, true, true, true, false, false]

/-- The `ver_row` template row of `insert_pulsar_at_pos`. -/
def ver_row : List Bool :=
  [true, false, false, false, false, true, false, true, false, false, false, false, true]

/-- The `empty_row` template row of `insert_pulsar_at_pos`. -/
def empty_row : List Bool := List.replicate 13 false

/-- The `rows` template of `insert_pulsar_at_pos`. -/
def pulsar_rows : List (List Bool) :=
  [hor_row, empty_row, ver_row, ver_row, ver_row, hor_row, empty_row, hor_row,
    ver_row, ver_row, ver_row, empty_row, hor_row]

/-- `insert_pulsar_at_pos`: rows are wrapped modulo `height`; the column
offset `row_idx + idx - 6` is raw `usize` arithmetic with no wraparound.
The source's per-row locals `cell_row` and `row_idx` are inlined into the
inner write (they are pure, so hoisting makes no difference). -/
def insert_pulsar_at_pos (u : Universe) (row col : Nat) : Option Universe :=
  (pulsar_rows.enum.foldl (fun acc dr =>
      (List.range 13).foldl (fun acc idx =>
        acc.bind fun s =>
          s.set
            (wsub (wadd (wadd (u.get_row_index
              (wadd (wsub (wadd dr.1 u.height) 6 % u.height) row % u.height)) col) idx) 6)
            (dr.2.getD idx false))
        acc)
    (some u.cells)).map fun s => { u with cells := s }

/-- The `fmt::Display` impl backing `render()`: one glyph per `u32` block of
`as_slice()`, in chunks of `width` blocks, each chunk ended by `'\n'`. -/
def render (u : Universe) : String :=
  String.join ((u.cells.as_slice.toChunks u.width).map fun line =>
    String.mk (line.map fun cell => if cell == 0 then '◻' else '◼') ++ "\n")

/-- Well-formed engine state: both bit buffers hold `width * height` bits and
the cell count is `usize`-representable (true of every state the wasm engine
can actually hold). -/
def wf (u : Universe) : Prop :=
  u.cells.len = u.width * u.height ∧ u.temp_cells.len = u.width * u.height ∧
    u.width * u.height < U32MOD

end Universe

/-! ## Arithmetic helpers -/

theorem wadd_eq {a b : Nat} (h : a + b < U32MOD) : wadd a b = a + b :=
  Nat.mod_eq_of_lt h

theorem wmul_eq {a b : Nat} (h : a * b < U32MOD) : wmul a b = a * b :=
  Nat.mod_eq_of_lt h

theorem wsub_eq {a b : Nat} (hb : b ≤ a) (ha : a < U32MOD) : wsub a b = a - b := by
  unfold wsub
  have h1 : a + U32MOD - b = (a - b) + U32MOD := by omega
  rw [h1, Nat.add_mod_right, Nat.mod_eq_of_lt (by omega)]

theorem index_lt {row col w h : Nat} (hr : row < h) (hc : col < w) :
    row * w + col < w * h := by
  have h1 : (row + 1) * w ≤ h * w := Nat.mul_le_mul_right w hr
  calc row * w + col < row * w + w := by omega
    _ = (row + 1) * w := by ring
    _ ≤ h * w := h1
    _ = w * h := Nat.mul_comm h w

theorem index_inj {r₁ c₁ r₂ c₂ w : Nat} (hc₁ : c₁ < w) (hc₂ : c₂ < w)
    (h : r₁ * w + c₁ = r₂ * w + c₂) : r₁ = r₂ ∧ c₁ = c₂ := by
  rcases Nat.lt_trichotomy r₁ r₂ with hlt | heq | hgt
  · have h1 : r₁ * w + w ≤ r₂ * w := by
      calc r₁ * w + w = (r₁ + 1) * w := by ring
        _ ≤ r₂ * w := Nat.mul_le_mul_right w hlt
    exact absurd h (by linarith)
  · subst heq
    exact ⟨rfl, Nat.add_left_cancel h⟩
  · have h1 : r₂ * w + w ≤ r₁ * w := by
      calc r₂ * w + w = (r₂ + 1) * w := by ring
        _ ≤ r₁ * w := Nat.mul_le_mul_right w hgt
    exact absurd h (by linarith)

/-- Wrapped decrement: `(row + (n - 1)) % n` for `row < n`. -/
theorem mod_add_pred {n row : Nat} (hn : 1 ≤ n) (hr : row < n) :
    (row + (n - 1)) % n = if row = 0 then n - 1 else row - 1 := by
  by_cases h0 : row = 0
  · subst h0
    simp [Nat.mod_eq_of_lt (by omega : n - 1 < n)]
  · have h1 : row + (n - 1) = (row - 1) + n := by omega
    rw [h1, Nat.add_mod_right, Nat.mod_eq_of_lt (by omega), if_neg h0]

/-- Wrapped increment: `(row + 1) % n` for `row < n`. -/
theorem mod_add_one {n row : Nat} (hr : row < n) :
    (row + 1) % n = if row = n - 1 then 0 else row + 1 := by
  by_cases h0 : row = n - 1
  · subst h0
    have h1 : n - 1 + 1 = n := by omega
    simp [h1]
  · rw [Nat.mod_eq_of_lt (by omega), if_neg h0]

/-! ## Normalising the write loops to `writeList` -/

theorem foldl_set_eq_writeList {β : Type} (ix : β → Nat) (vl : β → Bool)
    (l : List β) (o : Option FixedBitSet) :
    l.foldl (fun acc b => acc.bind fun s => s.set (ix b) (vl b)) o =
      o.bind fun t => t.writeList (l.map fun b => (ix b, vl b)) := by
  induction l generalizing o with
  | nil => cases o <;> simp [FixedBitSet.writeList]
  | cons b l ih =>
    rw [List.foldl_cons, ih]
    cases o with
    | none => simp
    | some t =>
      simp only [Option.some_bind, List.map_cons]
      rw [FixedBitSet.writeList_cons]

theorem foldl_foldl_set_eq_writeList {α β : Type} (ix : α → β → Nat) (vl : α → β → Bool)
    (l₁ : List α) (l₂ : List β) (o : Option FixedBitSet) :
    l₁.foldl (fun acc a =>
        l₂.foldl (fun acc b => acc.bind fun s => s.set (ix a b) (vl a b)) acc) o =
      o.bind fun t =>
        t.writeList (l₁.flatMap fun a => l₂.map fun b => (ix a b, vl a b)) := by
  induction l₁ generalizing o with
  | nil => cases o <;> simp [FixedBitSet.writeList]
  | cons a l₁ ih =>
    rw [List.foldl_cons, ih, foldl_set_eq_writeList (ix a) (vl a), List.flatMap_cons]
    cases o with
    | none => simp
    | some t =>
      simp only [Option.some_bind]
      rw [FixedBitSet.writeList_append]

/-- The row-major traversal order of the nested `for row { for col }` loops. -/
def gridPairs (h w : Nat) : List (Nat × Nat) :=
  (List.range h).flatMap fun row => (List.range w).map fun col => (row, col)

theorem mem_gridPairs {h w : Nat} {p : Nat × Nat} :
    p ∈ gridPairs h w ↔ p.1 < h ∧ p.2 < w := by
  cases p with
  | mk r c =>
    simp only [gridPairs, List.mem_flatMap, List.mem_map, List.mem_range, Prod.mk.injEq]
    constructor
    · rintro ⟨a, ha, b, hb, rfl, rfl⟩
      exact ⟨ha, hb⟩
    · rintro ⟨hr, hc⟩
      exact ⟨r, hr, c, hc, rfl, rfl⟩

theorem nodup_gridPairs (h w : Nat) : (gridPairs h w).Nodup := by
  apply List.nodup_flatMap.mpr
  constructor
  · intro r _
    exact (List.nodup_range w).map fun a b hab => by
      injection hab
  · apply List.Pairwise.imp ?_ (List.pairwise_lt_range h)
    intro r₁ r₂ hlt p hp₁ hp₂
    obtain ⟨c₁, _, rfl⟩ := List.mem_map.mp hp₁
    obtain ⟨c₂, _, h₂⟩ := List.mem_map.mp hp₂
    injection h₂ with h₂₁ h₂₂
    omega

namespace Universe

theorem get_index_eq {u : Universe} {row col : Nat} (hM : u.width * u.height < U32MOD)
    (hr : row < u.height) (hc : col < u.width) :
    u.get_index row col = row * u.width + col := by
  have h1 : row * u.width + col < u.width * u.height := index_lt hr hc
  unfold get_index
  rw [wmul_eq (by linarith), wadd_eq (by linarith)]

/-- The write sequence `tick` pushes into the scratch buffer, in order. -/
def tickWrites (u : Universe) : List (Nat × Bool) :=
  (gridPairs u.height u.width).map fun rc =>
    (u.get_index rc.1 rc.2,
      next_cell (u.cells.get (u.get_index rc.1 rc.2)) (u.live_neighbor_count rc.1 rc.2))

theorem tick_eq_writeList (u : Universe) :
    u.tick = (u.temp_cells.set_range_false.writeList (tickWrites u)).map
      fun t => { u with cells := t, temp_cells := t } := by
  have h1 : tickWrites u = (List.range u.height).flatMap fun row =>
      (List.range u.width).map fun col =>
        (u.get_index row col,
          next_cell (u.cells.get (u.get_index row col)) (u.live_neighbor_count row col)) := by
    simp only [tickWrites, gridPairs, List.map_flatMap, List.map_map]
    rfl
  rw [h1]
  unfold tick
  exact congrArg (Option.map fun t => { u with cells := t, temp_cells := t })
    (foldl_foldl_set_eq_writeList (fun row col => u.get_index row col)
      (fun row col =>
        next_cell (u.cells.get (u.get_index row col)) (u.live_neighbor_count row col))
      (List.range u.height) (List.range u.width) (some u.temp_cells.set_range_false))

theorem tick_spec {u : Universe} (hwf : u.wf) :
    ∃ v, u.tick = some v ∧ v.width = u.width ∧ v.height = u.height ∧
      v.temp_cells = v.cells ∧ v.cells.len = u.width * u.height ∧
      ∀ row col, row < u.height → col < u.width →
        v.cells.get (row * u.width + col) =
          next_cell (u.cells.get (row * u.width + col)) (u.live_neighbor_count row col) := by
  obtain ⟨hcl, htl, hM⟩ := hwf
  have hin : ∀ p ∈ tickWrites u, p.1 < u.temp_cells.set_range_false.len := by
    intro p hp
    rw [FixedBitSet.len_set_range_false]
    unfold FixedBitSet.len at htl ⊢
    rw [htl]
    obtain ⟨rc, hrc, rfl⟩ := List.mem_map.mp hp
    obtain ⟨hr, hc⟩ := mem_gridPairs.mp hrc
    simpa [get_index_eq hM hr hc] using index_lt hr hc
  obtain ⟨t, ht⟩ := FixedBitSet.writeList_isSome hin
  refine ⟨{ u with cells := t, temp_cells := t }, ?_, rfl, rfl, rfl, ?_, ?_⟩
  · rw [tick_eq_writeList, ht]
    rfl
  · have h2 := FixedBitSet.len_of_writeList ht
    rw [FixedBitSet.len_set_range_false, htl] at h2
    simpa using h2
  · intro row col hr hc
    have hmem : ((row, col) : Nat × Nat) ∈ gridPairs u.height u.width :=
      mem_gridPairs.mpr ⟨hr, hc⟩
    obtain ⟨l₁, l₂, hsplit⟩ := List.append_of_mem hmem
    have hnd : (gridPairs u.height u.width).Nodup := nodup_gridPairs _ _
    rw [hsplit] at hnd
    have hnotmem : ((row, col) : Nat × Nat) ∉ l₂ :=
      (List.nodup_cons.mp (List.nodup_append.mp hnd).2.1).1
    have hsub : ∀ rc ∈ l₂, rc ∈ gridPairs u.height u.width := by
      intro rc hrc
      rw [hsplit]
      exact List.mem_append_right _ (List.mem_cons_of_mem _ hrc)
    have hw : tickWrites u =
        (l₁.map fun rc => (u.get_index rc.1 rc.2,
            next_cell (u.cells.get (u.get_index rc.1 rc.2)) (u.live_neighbor_count rc.1 rc.2))) ++
          (u.get_index row col,
            next_cell (u.cells.get (u.get_index row col)) (u.live_neighbor_count row col)) ::
          (l₂.map fun rc => (u.get_index rc.1 rc.2,
            next_cell (u.cells.get (u.get_index rc.1 rc.2)) (u.live_neighbor_count rc.1 rc.2))) := by
      rw [tickWrites, hsplit]
      simp
    rw [hw] at ht
    have hlast := FixedBitSet.get_writeList_last ht ?_
    · show ({ u with cells := t, temp_cells := t } : Universe).cells.get
          (row * u.width + col) = _
      simp only []
      rw [← get_index_eq hM hr hc]
      exact hlast
    · intro p hp
      obtain ⟨rc, hrc, rfl⟩ := List.mem_map.mp hp
      obtain ⟨hr', hc'⟩ := mem_gridPairs.mp (hsub rc hrc)
      rw [get_index_eq hM hr' hc', get_index_eq hM hr hc]
      intro heq
      obtain ⟨he1, he2⟩ := index_inj hc' hc heq
      exact hnotmem (by rw [← he1, ← he2]; simpa using hrc)

end Universe

namespace FixedBitSet

theorem get_writeList_true {s s' : FixedBitSet} {ps : List (Nat × Bool)}
    (hv : ∀ p ∈ ps, p.2 = true) (h : s.writeList ps = some s') (i : Nat) :
    s'.get i = (s.get i || ps.any fun p => p.1 == i) := by
  induction ps generalizing s with
  | nil =>
    rw [writeList_nil] at h
    injection h with h
    subst h
    simp
  | cons p ps ih =>
    rw [writeList_cons] at h
    rcases hs : s.set p.1 p.2 with _ | t
    · rw [hs] at h; simp at h
    · rw [hs] at h
      simp only [Option.some_bind] at h
      rw [ih (fun q hq => hv q (List.mem_cons_of_mem p hq)) h, get_of_set hs]
      by_cases hip : i = p.1
      · subst hip
        simp [hv p (List.mem_cons_self p ps)]
      · have hb : (p.1 == i) = false := beq_eq_false_iff_ne.mpr fun hpe => hip hpe.symm
        simp [hip, hb]

theorem eq_of_get {s t : FixedBitSet} (hlen : s.len = t.len)
    (h : ∀ i, s.get i = t.get i) : s = t := by
  cases s with
  | mk ls =>
    cases t with
    | mk lt =>
      congr 1
      apply List.ext_getElem (by simpa [len] using hlen)
      intro i h₁ h₂
      have h₃ := h i
      simpa [get, List.getD, List.getElem?_eq_getElem, h₁, h₂] using h₃

end FixedBitSet

theorem list_any_map {α β : Type} (l : List α) (f : α → β) (p : β → Bool) :
    (l.map f).any p = l.any fun x => p (f x) := by
  induction l with
  | nil => rfl
  | cons a l ih => simp [ih]

theorem toNat_sum_le_eight (b₁ b₂ b₃ b₄ b₅ b₆ b₇ b₈ : Bool) :
    b₁.toNat + b₂.toNat + b₃.toNat + b₄.toNat + b₅.toNat + b₆.toNat +
      b₇.toNat + b₈.toNat ≤ 8 := by
  cases b₁ <;> cases b₂ <;> cases b₃ <;> cases b₄ <;> cases b₅ <;> cases b₆ <;>
    cases b₇ <;> cases b₈ <;> decide

namespace Universe

theorem live_neighbor_count_le_eight (u : Universe) (row col : Nat) :
    u.live_neighbor_count row col ≤ 8 :=
  toNat_sum_le_eight _ _ _ _ _ _ _ _

theorem next_cell_true_iff (cell : Bool) (x : Nat) :
    next_cell cell x = true ↔
      ((cell = true ∧ (x = 2 ∨ x = 3)) ∨ (cell = false ∧ x = 3)) := by
  unfold next_cell
  cases cell <;> split_ifs <;> simp_all <;> omega

theorem set_cells_eq_writeList (u : Universe) (L : List (Nat × Nat)) :
    u.set_cells L =
      (u.cells.writeList (L.map fun rc => (u.get_index rc.1 rc.2, true))).map
        fun s => { u with cells := s } := by
  unfold set_cells
  exact congrArg (Option.map fun s => { u with cells := s })
    (foldl_set_eq_writeList (fun rc => u.get_index rc.1 rc.2) (fun _ => true) L
      (some u.cells))

theorem set_cells_spec {u : Universe} {L : List (Nat × Nat)} (hwf : u.wf)
    (hL : ∀ p ∈ L, p.1 < u.height ∧ p.2 < u.width) :
    ∃ v, u.set_cells L = some v ∧ v.width = u.width ∧ v.height = u.height ∧
      v.temp_cells = u.temp_cells ∧ v.cells.len = u.cells.len ∧
      ∀ i, v.cells.get i =
        (u.cells.get i || L.any fun rc => u.get_index rc.1 rc.2 == i) := by
  obtain ⟨hcl, htl, hM⟩ := hwf
  have hin : ∀ p ∈ (L.map fun rc => (u.get_index rc.1 rc.2, true)), p.1 < u.cells.len := by
    intro p hp
    obtain ⟨rc, hrc, rfl⟩ := List.mem_map.mp hp
    obtain ⟨hr, hc⟩ := hL rc hrc
    rw [hcl]
    simpa [get_index_eq hM hr hc] using index_lt hr hc
  obtain ⟨t, ht⟩ := FixedBitSet.writeList_isSome hin
  refine ⟨{ u with cells := t }, ?_, rfl, rfl, rfl, ?_, ?_⟩
  · rw [set_cells_eq_writeList, ht]
    rfl
  · simpa using FixedBitSet.len_of_writeList ht
  · intro i
    have hg := FixedBitSet.get_writeList_true ?_ ht i
    · show t.get i = _
      rw [hg, list_any_map]
    · intro p hp
      obtain ⟨rc, _, rfl⟩ := List.mem_map.mp hp
      rfl

end Universe

namespace FixedBitSet

theorem get_writeList_mem_nodup {s s' : FixedBitSet} {ps : List (Nat × Bool)}
    {i : Nat} {b : Bool} (h : s.writeList ps = some s')
    (hnd : (ps.map Prod.fst).Nodup) (hmem : (i, b) ∈ ps) :
    s'.get i = b := by
  obtain ⟨l₁, l₂, rfl⟩ := List.append_of_mem hmem
  apply get_writeList_last h
  intro p hp
  rw [List.map_append, List.map_cons] at hnd
  have h₁ := (List.nodup_append.mp hnd).2.1
  have hni : i ∉ l₂.map Prod.fst := (List.nodup_cons.mp h₁).1
  exact fun hpe => hni (hpe ▸ List.mem_map_of_mem Prod.fst hp)

end FixedBitSet

theorem index_ne {r₁ c₁ r₂ c₂ w : Nat} (hc₁ : c₁ < w) (hc₂ : c₂ < w)
    (hne : r₁ ≠ r₂ ∨ c₁ ≠ c₂) : r₁ * w + c₁ ≠ r₂ * w + c₂ := by
  intro h
  obtain ⟨e₁, e₂⟩ := index_inj hc₁ hc₂ h
  tauto

theorem nodup_index_grid {w r₀ r₁ r₂ c₀ c₁ c₂ : Nat}
    (hc₀ : c₀ < w) (hc₁ : c₁ < w) (hc₂ : c₂ < w)
    (hr01 : r₀ ≠ r₁) (hr02 : r₀ ≠ r₂) (hr12 : r₁ ≠ r₂)
    (hk01 : c₀ ≠ c₁) (hk02 : c₀ ≠ c₂) (hk12 : c₁ ≠ c₂) :
    ([r₀ * w + c₀, r₀ * w + c₁, r₀ * w + c₂,
      r₁ * w + c₀, r₁ * w + c₁, r₁ * w + c₂,
      r₂ * w + c₀, r₂ * w + c₁, r₂ * w + c₂] : List Nat).Nodup := by
  simp only [List.nodup_cons, List.mem_cons, List.not_mem_nil, or_false, not_or,
    List.nodup_nil, and_true]
  repeat' apply And.intro
  all_goals first
    | exact not_false
    | (apply index_ne <;> first | assumption | tauto)

/-- Rows `(row + (n-1)) % n`, `row`, `(row + 1) % n` are pairwise distinct
on a grid with at least three rows. -/
theorem three_shifts_distinct {n row : Nat} (hn : 3 ≤ n) (hr : row < n) :
    (row + (n - 1)) % n ≠ row ∧ row ≠ (row + 1) % n ∧
      (row + (n - 1)) % n ≠ (row + 1) % n := by
  rw [mod_add_pred (by omega) hr, mod_add_one hr]
  split_ifs <;> omega

namespace Universe

/-- The write sequence of `insert_glider_at_pos`, in execution order. -/
def gliderWrites (u : Universe) (row col : Nat) : List (Nat × Bool) :=
  [wsub u.height 1, 0, 1].flatMap fun d_row =>
    [wsub u.width 1, 0, 1].map fun d_col =>
      (u.get_index (wadd d_row row % u.height) (wadd d_col col % u.width),
        decide ((d_row = wsub u.height 1 ∧ d_col = 0) ∨
          (d_row = 0 ∧ d_col = wsub u.width 1) ∨ d_row = 1))

theorem glider_eq_writeList (u : Universe) (row col : Nat) :
    u.insert_glider_at_pos row col =
      (u.cells.writeList (gliderWrites u row col)).map
        fun s => { u with cells := s } := by
  unfold insert_glider_at_pos gliderWrites
  exact congrArg (Option.map fun s => { u with cells := s })
    (foldl_foldl_set_eq_writeList
      (fun d_row d_col =>
        u.get_index (wadd d_row row % u.height) (wadd d_col col % u.width))
      (fun d_row d_col =>
        decide ((d_row = wsub u.height 1 ∧ d_col = 0) ∨
          (d_row = 0 ∧ d_col = wsub u.width 1) ∨ d_row = 1))
      [wsub u.height 1, 0, 1] [wsub u.width 1, 0, 1] (some u.cells))

theorem glider_isSome {u : Universe} {row col : Nat} (hwf : u.wf)
    (hr : row < u.height) (hc : col < u.width) :
    ∃ v, u.insert_glider_at_pos row col = some v := by
  obtain ⟨hcl, htl, hM⟩ := hwf
  have hin : ∀ p ∈ gliderWrites u row col, p.1 < u.cells.len := by
    intro p hp
    unfold gliderWrites at hp
    simp only [List.mem_flatMap, List.mem_map] at hp
    obtain ⟨d_row, _, d_col, _, rfl⟩ := hp
    have h₁ : wadd d_row row % u.height < u.height := Nat.mod_lt _ (by omega)
    have h₂ : wadd d_col col % u.width < u.width := Nat.mod_lt _ (by omega)
    rw [hcl, get_index_eq hM h₁ h₂]
    exact index_lt h₁ h₂
  obtain ⟨t, ht⟩ := FixedBitSet.writeList_isSome hin
  refine ⟨{ u with cells := t }, ?_⟩
  rw [glider_eq_writeList, ht]
  rfl

/-- Under the preconditions of the glider stamp, its write list normalises to
nine explicit cells: the canonical five-cell glider and four cleared cells. -/
theorem gliderWrites_eq {u : Universe} {row col : Nat}
    (hh : 3 ≤ u.height) (hw : 3 ≤ u.width) (hr : row < u.height) (hc : col < u.width)
    (hM : u.width * u.height < U32MOD) :
    gliderWrites u row col =
      [(((row + (u.height - 1)) % u.height) * u.width + (col + (u.width - 1)) % u.width,
          false),
        (((row + (u.height - 1)) % u.height) * u.width + col, true),
        (((row + (u.height - 1)) % u.height) * u.width + (col + 1) % u.width, false),
        (row * u.width + (col + (u.width - 1)) % u.width, true),
        (row * u.width + col, false),
        (row * u.width + (col + 1) % u.width, false),
        (((row + 1) % u.height) * u.width + (col + (u.width - 1)) % u.width, true),
        (((row + 1) % u.height) * u.width + col, true),
        (((row + 1) % u.height) * u.width + (col + 1) % u.width, true)] := by
  have hpos_h : 0 < u.height := by omega
  have hpos_w : 0 < u.width := by omega
  have h3h : 3 * u.height ≤ u.width * u.height := Nat.mul_le_mul_right _ hw
  have h3w : 3 * u.width ≤ u.width * u.height := by
    calc 3 * u.width = u.width * 3 := by ring
      _ ≤ u.width * u.height := Nat.mul_le_mul_left _ hh
  have e_sub_h : wsub u.height 1 = u.height - 1 := wsub_eq (by omega) (by omega)
  have e_sub_w : wsub u.width 1 = u.width - 1 := wsub_eq (by omega) (by omega)
  have e_r0 : wadd (u.height - 1) row % u.height = (row + (u.height - 1)) % u.height := by
    rw [wadd_eq (by omega), Nat.add_comm]
  have e_r1 : wadd 0 row % u.height = row := by
    rw [wadd_eq (by omega), Nat.zero_add, Nat.mod_eq_of_lt hr]
  have e_r2 : wadd 1 row % u.height = (row + 1) % u.height := by
    rw [wadd_eq (by omega), Nat.add_comm]
  have e_c0 : wadd (u.width - 1) col % u.width = (col + (u.width - 1)) % u.width := by
    rw [wadd_eq (by omega), Nat.add_comm]
  have e_c1 : wadd 0 col % u.width = col := by
    rw [wadd_eq (by omega), Nat.zero_add, Nat.mod_eq_of_lt hc]
  have e_c2 : wadd 1 col % u.width = (col + 1) % u.width := by
    rw [wadd_eq (by omega), Nat.add_comm]
  have hr0 : (row + (u.height - 1)) % u.height < u.height := Nat.mod_lt _ hpos_h
  have hr2 : (row + 1) % u.height < u.height := Nat.mod_lt _ hpos_h
  have hc0 : (col + (u.width - 1)) % u.width < u.width := Nat.mod_lt _ hpos_w
  have hc2 : (col + 1) % u.width < u.width := Nat.mod_lt _ hpos_w
  unfold gliderWrites
  rw [e_sub_h, e_sub_w]
  simp only [List.flatMap_cons, List.flatMap_nil, List.map_cons, List.map_nil,
    List.append_nil, List.cons_append, List.nil_append]
  rw [e_r0, e_r1, e_r2, e_c0, e_c1, e_c2]
  rw [get_index_eq hM hr0 hc0, get_index_eq hM hr0 hc, get_index_eq hM hr0 hc2,
    get_index_eq hM hr hc0, get_index_eq hM hr hc, get_index_eq hM hr hc2,
    get_index_eq hM hr2 hc0, get_index_eq hM hr2 hc, get_index_eq hM hr2 hc2]
  simp only [show ¬(u.height - 1 = 0) from by omega, show ¬(u.height - 1 = 1) from by omega,
    show ¬((0 : Nat) = u.height - 1) from by omega,
    show ¬((1 : Nat) = u.height - 1) from by omega,
    show ¬(u.width - 1 = 0) from by omega,
    show ¬((0 : Nat) = u.width - 1) from by omega,
    show ¬((1 : Nat) = u.width - 1) from by omega,
    eq_self_iff_true, true_and, and_true, and_false, false_and, or_false, false_or,
    or_true, true_or, decide_False, decide_True, Nat.one_ne_zero, Nat.zero_ne_one,
    iff_false, not_false_eq_true]

end Universe

namespace Universe

/-- The write sequence of `insert_pulsar_at_pos`, in execution order. -/
def pulsarWrites (u : Universe) (row col : Nat) : List (Nat × Bool) :=
  pulsar_rows.enum.flatMap fun dr =>
    (List.range 13).map fun idx =>
      (wsub (wadd (wadd (u.get_row_index
            (wadd (wsub (wadd dr.1 u.height) 6 % u.height) row % u.height)) col) idx) 6,
        dr.2.getD idx false)

theorem pulsar_eq_writeList (u : Universe) (row col : Nat) :
    u.insert_pulsar_at_pos row col =
      (u.cells.writeList (pulsarWrites u row col)).map
        fun s => { u with cells := s } := by
  unfold insert_pulsar_at_pos pulsarWrites
  rw [foldl_foldl_set_eq_writeList]
  simp only [Option.some_bind]

/-- Every write of the pulsar stamp stays in range whenever the anchor column
is at least 6 cells away from both vertical grid edges. -/
theorem pulsar_isSome {u : Universe} {row col : Nat} (hwf : u.wf)
    (hr : row < u.height) (hc6 : 6 ≤ col) (hc : col + 6 < u.width)
    (hM6 : u.width * u.height + 6 ≤ U32MOD) :
    ∃ v, u.insert_pulsar_at_pos row col = some v := by
  obtain ⟨hcl, htl, hM⟩ := hwf
  have hpos_h : 0 < u.height := by omega
  have hhw : (u.height - 1) * u.width + u.width = u.height * u.width := by
    have h1 : u.height - 1 + 1 = u.height := by omega
    calc (u.height - 1) * u.width + u.width = ((u.height - 1) + 1) * u.width := by ring
      _ = u.height * u.width := by rw [h1]
  have hcomm : u.height * u.width = u.width * u.height := Nat.mul_comm _ _
  have hin : ∀ p ∈ pulsarWrites u row col, p.1 < u.cells.len := by
    intro p hp
    unfold pulsarWrites at hp
    simp only [List.mem_flatMap, List.mem_map, List.mem_range] at hp
    obtain ⟨dr, hdr, idx, hidx, rfl⟩ := hp
    set cell_row := wadd (wsub (wadd dr.1 u.height) 6 % u.height) row % u.height with hcr_def
    have hcr : cell_row < u.height := Nat.mod_lt _ hpos_h
    have hcw : cell_row * u.width ≤ (u.height - 1) * u.width :=
      Nat.mul_le_mul_right _ (by omega : cell_row ≤ u.height - 1)
    have hgr : u.get_row_index cell_row = cell_row * u.width := by
      unfold get_row_index
      exact wmul_eq (by
        have := index_lt hcr (show 0 < u.width from by omega)
        linarith)
    rw [hgr]
    have hri : wadd (cell_row * u.width) col = cell_row * u.width + col :=
      wadd_eq (by have := index_lt hcr (show col < u.width from by omega); linarith)
    rw [hri]
    have hii : wadd (cell_row * u.width + col) idx = cell_row * u.width + col + idx :=
      wadd_eq (by linarith)
    rw [hii]
    have hsub : wsub (cell_row * u.width + col + idx) 6 =
        cell_row * u.width + col + idx - 6 :=
      wsub_eq (by omega) (by linarith)
    rw [hsub, hcl]
    have h2 : cell_row * u.width + col + idx - 6 < u.height * u.width := by omega
    omega
  obtain ⟨t, ht⟩ := FixedBitSet.writeList_isSome hin
  refine ⟨{ u with cells := t }, ?_⟩
  rw [pulsar_eq_writeList, ht]
  rfl

end Universe

namespace FixedBitSet

theorem writeList_some_forall {s s' : FixedBitSet} {ps : List (Nat × Bool)}
    (h : s.writeList ps = some s') : ∀ p ∈ ps, p.1 < s.len := by
  induction ps generalizing s with
  | nil => intro p hp; cases hp
  | cons p ps ih =>
    rw [writeList_cons] at h
    rcases hs : s.set p.1 p.2 with _ | t
    · rw [hs] at h; simp at h
    · rw [hs] at h
      simp only [Option.some_bind] at h
      intro q hq
      rcases List.mem_cons.mp hq with rfl | hq'
      · obtain h₁ := set_eq_some_iff.mp ⟨t, hs⟩
        exact h₁
      · exact (len_of_set hs) ▸ ih h q hq'

theorem writeList_range_map (p : Nat → Bool) (n : Nat) (t : FixedBitSet)
    (hn : n ≤ t.len) :
    ∃ s, t.writeList ((List.range n).map fun i => (i, p i)) = some s ∧
      s.len = t.len ∧ (∀ j, j < n → s.get j = p j) ∧
      ∀ j, n ≤ j → s.get j = t.get j := by
  induction n with
  | zero => exact ⟨t, rfl, rfl, fun j hj => absurd hj (by omega), fun j _ => rfl⟩
  | succ n ih =>
    obtain ⟨s, hs, hlen, hlt, hge⟩ := ih (by omega)
    obtain ⟨s', hs'⟩ := set_eq_some_iff.mpr (show n < s.len by omega)
    refine ⟨s', ?_, (len_of_set hs').trans hlen, ?_, ?_⟩
    · rw [List.range_succ, List.map_append, writeList_append, hs]
      show s.set n (p n) = some s'
      exact hs'
    · intro j hj
      rw [get_of_set hs']
      by_cases hjn : j = n
      · rw [if_pos hjn, hjn]
      · rw [if_neg hjn, hlt j (by omega)]
    · intro j hj
      rw [get_of_set hs', if_neg (show ¬j = n by omega), hge j (by omega)]

end FixedBitSet

namespace Universe

theorem toggle_cell_isSome {u : Universe} {row col : Nat} (hwf : u.wf)
    (hr : row < u.height) (hc : col < u.width) :
    ∃ v, u.toggle_cell row col = some v := by
  obtain ⟨hcl, htl, hM⟩ := hwf
  obtain ⟨s, hs⟩ := FixedBitSet.set_eq_some_iff.mpr
    (show u.get_index row col < u.cells.len by
      rw [hcl, get_index_eq hM hr hc]
      exact index_lt hr hc)
  refine ⟨{ u with cells := s }, ?_⟩
  unfold toggle_cell
  rw [hs]
  rfl

theorem reset_random_isSome {u : Universe} (rnd : Nat → Nat → Bool) (hwf : u.wf) :
    ∃ v, u.reset_random rnd = some v := by
  obtain ⟨hcl, htl, hM⟩ := hwf
  have hin : ∀ p ∈ ((List.range u.height).flatMap fun row =>
      (List.range u.width).map fun col => (u.get_index row col, rnd row col)),
      p.1 < u.cells.len := by
    intro p hp
    simp only [List.mem_flatMap, List.mem_map, List.mem_range] at hp
    obtain ⟨r, hr, c, hc, rfl⟩ := hp
    rw [hcl, get_index_eq hM hr hc]
    exact index_lt hr hc
  obtain ⟨t, ht⟩ := FixedBitSet.writeList_isSome hin
  refine ⟨{ u with cells := t }, ?_⟩
  unfold reset_random
  rw [foldl_foldl_set_eq_writeList]
  simp only [Option.some_bind]
  rw [ht]
  rfl

theorem new_eq_general (N : Nat) (s : FixedBitSet)
    (hs : (FixedBitSet.with_capacity N).writeList
      ((List.range N).map fun i => (i, i % 2 == 0 || i % 7 == 0)) = some s) :
    ((List.range N).foldl
        (fun acc i => acc.bind fun st => st.set i (i % 2 == 0 || i % 7 == 0))
        (some (FixedBitSet.with_capacity N))).map
      (fun cells => ({ width := 256
                       height := 256
                       cells := cells
                       temp_cells := FixedBitSet.with_capacity N } : Universe)) =
      some { width := 256
             height := 256
             cells := s
             temp_cells := FixedBitSet.with_capacity N } := by
  rw [foldl_set_eq_writeList]
  simp only [Option.some_bind]
  rw [hs]
  rfl

theorem new_spec :
    ∃ u, Universe.new = some u ∧ u.width = 256 ∧ u.height = 256 ∧
      u.cells.len = 65536 ∧ u.temp_cells.len = 65536 ∧
      ∀ i, i < 65536 → u.cells.get i = (i % 2 == 0 || i % 7 == 0) := by
  have h65536 : wmul 256 256 = 65536 := rfl
  obtain ⟨s, hs, hlen, hlt, _⟩ := FixedBitSet.writeList_range_map
    (fun i => (i % 2 == 0 || i % 7 == 0)) (wmul 256 256)
    (FixedBitSet.with_capacity (wmul 256 256))
    (le_of_eq (FixedBitSet.len_with_capacity _).symm)
  refine ⟨{ width := 256
            height := 256
            cells := s
            temp_cells := FixedBitSet.with_capacity (wmul 256 256) },
    ?_, rfl, rfl, ?_, ?_, ?_⟩
  · exact new_eq_general (wmul 256 256) s hs
  · show s.len = 65536
    rw [hlen, FixedBitSet.len_with_capacity, h65536]
  · show (FixedBitSet.with_capacity (wmul 256 256)).len = 65536
    rw [FixedBitSet.len_with_capacity, h65536]
  · intro i hi
    exact hlt i (h65536.symm ▸ hi)

theorem set_width_spec (u : Universe) (w : Nat) :
    (u.set_width w).width = w ∧ (u.set_width w).height = u.height ∧
      (u.set_width w).cells.len = wmul w u.height ∧
      (u.set_width w).temp_cells = u.temp_cells ∧
      ∀ i, (u.set_width w).cells.get i = false := by
  refine ⟨rfl, rfl, ?_, rfl, ?_⟩
  · show ((FixedBitSet.with_capacity (wmul w u.height)).set_range_false).len = _
    rw [FixedBitSet.len_set_range_false, FixedBitSet.len_with_capacity]
  · intro i
    exact FixedBitSet.get_set_range_false _ i

theorem set_height_spec (u : Universe) (h : Nat) :
    (u.set_height h).width = u.width ∧ (u.set_height h).height = h ∧
      (u.set_height h).cells.len = wmul u.width h ∧
      (u.set_height h).temp_cells = u.temp_cells ∧
      ∀ i, (u.set_height h).cells.get i = false := by
  refine ⟨rfl, rfl, ?_, rfl, ?_⟩
  · show ((FixedBitSet.with_capacity (wmul u.width h)).set_range_false).len = _
    rw [FixedBitSet.len_set_range_false, FixedBitSet.len_with_capacity]
  · intro i
    exact FixedBitSet.get_set_range_false _ i

/-- A `tick` on a state whose scratch buffer is shorter than `width * height`
aborts with an out-of-range scratch write. -/
theorem tick_none_of_short_scratch {u : Universe}
    (hlt : u.temp_cells.len < u.width * u.height)
    (hM : u.width * u.height ≤ U32MOD) : u.tick = none := by
  rw [tick_eq_writeList]
  rcases hw : u.temp_cells.set_range_false.writeList (tickWrites u) with _ | t
  · rfl
  · exfalso
    have hall := FixedBitSet.writeList_some_forall hw
    have hwpos : 0 < u.width := by
      rcases Nat.eq_zero_or_pos u.width with h0 | h
      · rw [h0] at hlt; omega
      · exact h
    have hhpos : 0 < u.height := by
      rcases Nat.eq_zero_or_pos u.height with h0 | h
      · rw [h0] at hlt; omega
      · exact h
    set L := u.temp_cells.len with hL
    have hr : L / u.width < u.height := by
      rw [Nat.div_lt_iff_lt_mul hwpos]
      calc L < u.width * u.height := hlt
        _ = u.height * u.width := Nat.mul_comm _ _
    have hc : L % u.width < u.width := Nat.mod_lt _ hwpos
    have hidx : (L / u.width) * u.width + L % u.width = L := by
      calc (L / u.width) * u.width + L % u.width
        = u.width * (L / u.width) + L % u.width := by ring_nf
        _ = L := Nat.div_add_mod L u.width
    have hmem : (u.get_index (L / u.width) (L % u.width),
        next_cell (u.cells.get (u.get_index (L / u.width) (L % u.width)))
          (u.live_neighbor_count (L / u.width) (L % u.width))) ∈ tickWrites u := by
      unfold tickWrites
      exact List.mem_map_of_mem _
        ((@mem_gridPairs u.height u.width (L / u.width, L % u.width)).mpr ⟨hr, hc⟩)
    have hbound := hall _ hmem
    rw [FixedBitSet.len_set_range_false] at hbound
    have hgi : u.get_index (L / u.width) (L % u.width) = L := by
      unfold get_index
      rw [wmul_eq (by have h1 := Nat.div_mul_le_self L u.width; omega),
        wadd_eq (by rw [hidx]; omega)]
      exact hidx
    rw [hgi] at hbound
    omega

/-- A completed `tick` leaves both buffers equal, with the scratch buffer's
(pre-tick) length. -/
theorem tick_len {u v : Universe} (h : u.tick = some v) :
    v.cells.len = u.temp_cells.len ∧ v.temp_cells = v.cells ∧
      v.width = u.width ∧ v.height = u.height := by
  rw [tick_eq_writeList] at h
  rcases hw : u.temp_cells.set_range_false.writeList (tickWrites u) with _ | t
  · rw [hw] at h; simp at h
  · rw [hw] at h
    simp only [Option.map_some'] at h
    have hlen := FixedBitSet.len_of_writeList hw
    rw [FixedBitSet.len_set_range_false] at hlen
    cases h
    exact ⟨hlen, rfl, rfl, rfl⟩

end Universe

namespace Universe

theorem ext_fields {a b : Universe} (h1 : a.width = b.width)
    (h2 : a.height = b.height) (h3 : a.cells = b.cells)
    (h4 : a.temp_cells = b.temp_cells) : a = b := by
  cases a
  cases b
  simp_all

/-- The eight toroidal indices `live_neighbor_count` reads, in read order. -/
def neighbor_indices (u : Universe) (row column : Nat) : List Nat :=
  let north := if row = 0 then wsub u.height 1 else wsub row 1
  let south := if row = wsub u.height 1 then 0 else wadd row 1
  let west := if column = 0 then wsub u.width 1 else wsub column 1
  let east := if column = wsub u.width 1 then 0 else wadd column 1
  [u.get_index north west, u.get_index north column, u.get_index north east,
    u.get_index row west, u.get_index row east,
    u.get_index south west, u.get_index south column, u.get_index south east]

theorem live_neighbor_count_eq_sum (u : Universe) (row column : Nat) :
    u.live_neighbor_count row column =
      ((u.neighbor_indices row column).map fun i => (u.cells.get i).toNat).sum := by
  unfold live_neighbor_count neighbor_indices
  simp only [List.map_cons, List.map_nil, List.sum_cons, List.sum_nil]
  omega

theorem get_index_lt {u : Universe} (hM : u.width * u.height < U32MOD)
    {r c : Nat} (hr : r < u.height) (hc : c < u.width) :
    u.get_index r c < u.width * u.height := by
  rw [get_index_eq hM hr hc]
  exact index_lt hr hc

theorem neighbor_indices_lt {u : Universe} {row column : Nat} (hwf : u.wf)
    (hr : row < u.height) (hc : column < u.width) :
    ∀ i ∈ u.neighbor_indices row column, i < u.width * u.height := by
  obtain ⟨hcl, htl, hM⟩ := hwf
  have hpw : 0 < u.width := by omega
  have hph : 0 < u.height := by omega
  have hhM : u.height < U32MOD := by
    have h1 : u.height ≤ u.width * u.height := Nat.le_mul_of_pos_left _ hpw
    omega
  have hwM : u.width < U32MOD := by
    have h1 : u.width ≤ u.width * u.height := Nat.le_mul_of_pos_right _ hph
    omega
  have e_sub_h : wsub u.height 1 = u.height - 1 := wsub_eq (by omega) hhM
  have e_sub_w : wsub u.width 1 = u.width - 1 := wsub_eq (by omega) hwM
  have hnorth : (if row = 0 then wsub u.height 1 else wsub row 1) < u.height := by
    split_ifs with h0
    · rw [e_sub_h]; omega
    · rw [wsub_eq (by omega) (by omega)]; omega
  have hsouth : (if row = wsub u.height 1 then 0 else wadd row 1) < u.height := by
    rw [e_sub_h]
    split_ifs with h0
    · omega
    · rw [wadd_eq (by omega)]; omega
  have hwest : (if column = 0 then wsub u.width 1 else wsub column 1) < u.width := by
    split_ifs with h0
    · rw [e_sub_w]; omega
    · rw [wsub_eq (by omega) (by omega)]; omega
  have heast : (if column = wsub u.width 1 then 0 else wadd column 1) < u.width := by
    rw [e_sub_w]
    split_ifs with h0
    · omega
    · rw [wadd_eq (by omega)]; omega
  intro i hi
  unfold neighbor_indices at hi
  simp only [List.mem_cons, List.not_mem_nil, or_false] at hi
  rcases hi with rfl|rfl|rfl|rfl|rfl|rfl|rfl|rfl
  · exact get_index_lt hM hnorth hwest
  · exact get_index_lt hM hnorth hc
  · exact get_index_lt hM hnorth heast
  · exact get_index_lt hM hr hwest
  · exact get_index_lt hM hr heast
  · exact get_index_lt hM hsouth hwest
  · exact get_index_lt hM hsouth hc
  · exact get_index_lt hM hsouth heast

theorem set_cells_any_iff {u : Universe} {L : List (Nat × Nat)}
    (hM : u.width * u.height < U32MOD)
    (hL : ∀ p ∈ L, p.1 < u.height ∧ p.2 < u.width) {row col : Nat}
    (hr : row < u.height) (hc : col < u.width) :
    ((L.any fun rc => u.get_index rc.1 rc.2 == row * u.width + col) = true ↔
      (row, col) ∈ L) := by
  rw [List.any_eq_true]
  constructor
  · rintro ⟨rc, hrc, hbeq⟩
    rw [beq_iff_eq] at hbeq
    obtain ⟨h1, h2⟩ := hL rc hrc
    rw [get_index_eq hM h1 h2] at hbeq
    obtain ⟨e1, e2⟩ := index_inj h2 hc hbeq
    have hrceq : rc = (row, col) := by
      cases rc
      simp_all
    rw [← hrceq]
    exact hrc
  · intro hmem
    refine ⟨(row, col), hmem, ?_⟩
    rw [beq_iff_eq, get_index_eq hM hr hc]

end Universe

/-! ## Concrete states used by witnesses and counterexamples -/

/-- A well-formed empty 2×2 universe. -/
def u22 : Universe :=
  { width := 2
    height := 2
    cells := ⟨List.replicate 4 false⟩
    temp_cells := ⟨List.replicate 4 false⟩ }

theorem u22_wf : u22.wf := ⟨by decide, by decide, by decide⟩

/-- A well-formed empty 20×20 universe. -/
def u20 : Universe :=
  { width := 20
    height := 20
    cells := ⟨List.replicate 400 false⟩
    temp_cells := ⟨List.replicate 400 false⟩ }

theorem u20_wf : u20.wf := ⟨by decide, by decide, by decide⟩

/-- A well-formed empty 64×2 universe (4 packed `u32` blocks). -/
def u64 : Universe :=
  { width := 64
    height := 2
    cells := ⟨List.replicate 128 false⟩
    temp_cells := ⟨List.replicate 128 false⟩ }

/-- A well-formed empty 8×8 universe. -/
def u8 : Universe :=
  { width := 8
    height := 8
    cells := ⟨List.replicate 64 false⟩
    temp_cells := ⟨List.replicate 64 false⟩ }

theorem u8_wf : u8.wf := ⟨by decide, by decide, by decide⟩

/-! ## The claims -/

open Universe

/-- C1: for every well-formed grid state and every cell `(row, col)` with
`row < height` and `col < width`, one `tick` maps that cell by Conway's rule
computed from the pre-tick buffer: an alive cell with 2 or 3 alive toroidal
neighbours stays alive, an alive cell with any other count dies, a dead cell
with exactly 3 alive neighbours becomes alive, and a dead cell otherwise stays
dead; the neighbour count lies in `[0, 8]`. -/
theorem claim_C1 (u : Universe) (row col : Nat) (hwf : u.wf)
    (hr : row < u.height) (hc : col < u.width) :
    ∃ v, u.tick = some v ∧
      u.live_neighbor_count row col ≤ 8 ∧
      (v.cells.get (row * u.width + col) = true ↔
        ((u.cells.get (row * u.width + col) = true ∧
            (u.live_neighbor_count row col = 2 ∨ u.live_neighbor_count row col = 3)) ∨
          (u.cells.get (row * u.width + col) = false ∧
            u.live_neighbor_count row col = 3))) := by
  obtain ⟨v, htick, _, _, _, _, hget⟩ := tick_spec hwf
  refine ⟨v, htick, live_neighbor_count_le_eight u row col, ?_⟩
  rw [hget row col hr hc, next_cell_true_iff]

theorem claim_C1_witness :
    ∃ v, u22.tick = some v ∧
      u22.live_neighbor_count 0 0 ≤ 8 ∧
      (v.cells.get (0 * u22.width + 0) = true ↔
        ((u22.cells.get (0 * u22.width + 0) = true ∧
            (u22.live_neighbor_count 0 0 = 2 ∨ u22.live_neighbor_count 0 0 = 3)) ∨
          (u22.cells.get (0 * u22.width + 0) = false ∧
            u22.live_neighbor_count 0 0 = 3))) :=
  claim_C1 u22 0 0 u22_wf (by decide) (by decide)

/-- C2: the claimed invariant `len(cells) = len(temp_cells) = width*height`
is the evident intent (a completed `tick` requires it), but `set_width` /
`set_height` reallocate only `cells`: starting from a well-formed 2×2 state,
`set_width 3` leaves `temp_cells` at length 4 while `width*height = 6`. -/
theorem claim_C2_bug :
    u22.cells.len = u22.width * u22.height ∧
    u22.temp_cells.len = u22.width * u22.height ∧
    (u22.set_width 3).temp_cells.len ≠
      (u22.set_width 3).width * (u22.set_width 3).height ∧
    (u22.set_width 3).cells.len = 6 := by decide

/-- C3 counterexample: the pulsar stamp at the in-range anchor `(0, 0)` of an
empty well-formed 20×20 grid attempts a write outside `[0, width*height)`
(the operation aborts, modelled as `none`). -/
theorem claim_C3_cex :
    0 < u20.height ∧ 0 < u20.width ∧
    u20.insert_pulsar_at_pos 0 0 = none := by decide

/-- C3 amended: the Neighbor Oracle's eight read indices are wrapped and lie
in `[0, width*height)`, and the glider stamp's writes all stay in range; the
pulsar stamp wraps its rows but computes columns by a raw offset, and all its
writes stay in range (it completes) whenever `6 ≤ col` and `col + 6 < width`. -/
theorem claim_C3_amended (u : Universe) (row col : Nat) (hwf : u.wf)
    (hr : row < u.height) (hc : col < u.width) :
    (u.live_neighbor_count row col =
        ((u.neighbor_indices row col).map fun i => (u.cells.get i).toNat).sum) ∧
    (∀ i ∈ u.neighbor_indices row col, i < u.width * u.height) ∧
    (∃ v, u.insert_glider_at_pos row col = some v) ∧
    (6 ≤ col → col + 6 < u.width → u.width * u.height + 6 ≤ U32MOD →
      ∃ v, u.insert_pulsar_at_pos row col = some v) :=
  ⟨live_neighbor_count_eq_sum u row col,
    neighbor_indices_lt hwf hr hc,
    glider_isSome hwf hr hc,
    fun h6 hc6 hM6 => pulsar_isSome hwf hr h6 hc6 hM6⟩

theorem claim_C3_amended_witness :
    (u20.live_neighbor_count 0 6 =
        ((u20.neighbor_indices 0 6).map fun i => (u20.cells.get i).toNat).sum) ∧
    (∀ i ∈ u20.neighbor_indices 0 6, i < u20.width * u20.height) ∧
    (∃ v, u20.insert_glider_at_pos 0 6 = some v) ∧
    (∃ v, u20.insert_pulsar_at_pos 0 6 = some v) :=
  ⟨(claim_C3_amended u20 0 6 u20_wf (by decide) (by decide)).1,
    (claim_C3_amended u20 0 6 u20_wf (by decide) (by decide)).2.1,
    (claim_C3_amended u20 0 6 u20_wf (by decide) (by decide)).2.2.1,
    (claim_C3_amended u20 0 6 u20_wf (by decide) (by decide)).2.2.2
      (by decide) (by decide) (by decide)⟩

/-- C4: the claim describes the evident intent of `render` (one line per grid
row, one glyph per cell), but the `Display` impl chunks the raw `u32` block
slice: on a well-formed all-dead 64×2 grid (128 bits = 4 blocks) it renders a
single line of 4 glyphs, not 2 lines of 64 glyphs. -/
theorem claim_C4_bug :
    u64.cells.len = u64.width * u64.height ∧
    u64.render = "◻◻◻◻\n" ∧
    (u64.render).length = 5 := by decide

/-- C5 counterexample: stamping a glider at `(1, 1)` on an empty well-formed
8×8 grid leaves exactly 5 alive cells, not 3 as the claim states (a glider is
a 5-cell pattern). -/
theorem claim_C5_cex :
    (u8.insert_glider_at_pos 1 1).map (fun v => v.cells.bits.count true) =
      some 5 := by decide

/-- C5 amended: for `width, height ≥ 3` and an in-range anchor, the glider
stamp overwrites the 3×3 toroidal footprint around `(row, col)`, setting
exactly the 5 cells of the canonical diagonally-drifting glider shape alive —
`(row-1, col)`, `(row, col-1)` and the whole row `row+1` (all mod the grid) —
clearing the other 4 footprint cells, and leaving every cell outside the
footprint unchanged. -/
theorem claim_C5_amended (u : Universe) (row col : Nat) (hwf : u.wf)
    (hh : 3 ≤ u.height) (hw : 3 ≤ u.width) (hr : row < u.height) (hc : col < u.width) :
    ∃ v, u.insert_glider_at_pos row col = some v ∧
      v.width = u.width ∧ v.height = u.height ∧ v.temp_cells = u.temp_cells ∧
      (v.cells.get (((row + (u.height - 1)) % u.height) * u.width + col) = true ∧
        v.cells.get (row * u.width + (col + (u.width - 1)) % u.width) = true ∧
        v.cells.get (((row + 1) % u.height) * u.width +
          (col + (u.width - 1)) % u.width) = true ∧
        v.cells.get (((row + 1) % u.height) * u.width + col) = true ∧
        v.cells.get (((row + 1) % u.height) * u.width + (col + 1) % u.width) = true) ∧
      (v.cells.get (((row + (u.height - 1)) % u.height) * u.width +
          (col + (u.width - 1)) % u.width) = false ∧
        v.cells.get (((row + (u.height - 1)) % u.height) * u.width +
          (col + 1) % u.width) = false ∧
        v.cells.get (row * u.width + col) = false ∧
        v.cells.get (row * u.width + (col + 1) % u.width) = false) ∧
      ∀ r' c', r' < u.height → c' < u.width →
        ((r' ≠ (row + (u.height - 1)) % u.height ∧ r' ≠ row ∧
            r' ≠ (row + 1) % u.height) ∨
          (c' ≠ (col + (u.width - 1)) % u.width ∧ c' ≠ col ∧
            c' ≠ (col + 1) % u.width)) →
        v.cells.get (r' * u.width + c') = u.cells.get (r' * u.width + c') := by
  obtain ⟨hcl, htl, hM⟩ := hwf
  have hW := gliderWrites_eq hh hw hr hc hM
  have hpos_h : 0 < u.height := by omega
  have hpos_w : 0 < u.width := by omega
  have hr0 : (row + (u.height - 1)) % u.height < u.height := Nat.mod_lt _ hpos_h
  have hr2 : (row + 1) % u.height < u.height := Nat.mod_lt _ hpos_h
  have hc0 : (col + (u.width - 1)) % u.width < u.width := Nat.mod_lt _ hpos_w
  have hc2 : (col + 1) % u.width < u.width := Nat.mod_lt _ hpos_w
  have hin : ∀ p ∈ gliderWrites u row col, p.1 < u.cells.len := by
    rw [hW, hcl]
    intro p hp
    simp only [List.mem_cons, List.not_mem_nil, or_false] at hp
    rcases hp with rfl|rfl|rfl|rfl|rfl|rfl|rfl|rfl|rfl <;>
      exact index_lt (by assumption) (by assumption)
  obtain ⟨t, ht⟩ := FixedBitSet.writeList_isSome hin
  obtain ⟨hd01, hd12, hd02⟩ := three_shifts_distinct hh hr
  obtain ⟨he01, he12, he02⟩ := three_shifts_distinct hw hc
  have hnd : ((gliderWrites u row col).map Prod.fst).Nodup := by
    rw [hW]
    simp only [List.map_cons, List.map_nil]
    exact nodup_index_grid hc0 hc hc2 hd01 hd02 hd12 he01 he02 he12
  have hget : ∀ (i : Nat) (b : Bool), (i, b) ∈ gliderWrites u row col →
      t.get i = b :=
    fun i b hm => FixedBitSet.get_writeList_mem_nodup ht hnd hm
  refine ⟨{ u with cells := t }, ?_, rfl, rfl, rfl,
    ⟨?_, ?_, ?_, ?_, ?_⟩, ⟨?_, ?_, ?_, ?_⟩, ?_⟩
  · rw [glider_eq_writeList, ht]
    rfl
  · exact hget _ _ (by rw [hW]; simp)
  · exact hget _ _ (by rw [hW]; simp)
  · exact hget _ _ (by rw [hW]; simp)
  · exact hget _ _ (by rw [hW]; simp)
  · exact hget _ _ (by rw [hW]; simp)
  · exact hget _ _ (by rw [hW]; simp)
  · exact hget _ _ (by rw [hW]; simp)
  · exact hget _ _ (by rw [hW]; simp)
  · exact hget _ _ (by rw [hW]; simp)
  · intro r' c' hr' hc' hout
    have hnm : ∀ p ∈ gliderWrites u row col, p.1 ≠ r' * u.width + c' := by
      intro p hp
      rw [hW] at hp
      simp only [List.mem_cons, List.not_mem_nil, or_false] at hp
      rcases hout with ⟨ho1, ho2, ho3⟩ | ⟨ho1, ho2, ho3⟩
      · rcases hp with rfl|rfl|rfl|rfl|rfl|rfl|rfl|rfl|rfl <;>
          (refine index_ne ?_ hc' (Or.inl ?_) <;> first | assumption | omega)
      · rcases hp with rfl|rfl|rfl|rfl|rfl|rfl|rfl|rfl|rfl <;>
          (refine index_ne ?_ hc' (Or.inr ?_) <;> first | assumption | omega)
    exact FixedBitSet.get_writeList_not_mem ht hnm

theorem claim_C5_amended_witness :
    ∃ v, u8.insert_glider_at_pos 1 1 = some v ∧
      v.width = u8.width ∧ v.height = u8.height ∧ v.temp_cells = u8.temp_cells ∧
      (v.cells.get (((1 + (u8.height - 1)) % u8.height) * u8.width + 1) = true ∧
        v.cells.get (1 * u8.width + (1 + (u8.width - 1)) % u8.width) = true ∧
        v.cells.get (((1 + 1) % u8.height) * u8.width +
          (1 + (u8.width - 1)) % u8.width) = true ∧
        v.cells.get (((1 + 1) % u8.height) * u8.width + 1) = true ∧
        v.cells.get (((1 + 1) % u8.height) * u8.width + (1 + 1) % u8.width) = true) ∧
      (v.cells.get (((1 + (u8.height - 1)) % u8.height) * u8.width +
          (1 + (u8.width - 1)) % u8.width) = false ∧
        v.cells.get (((1 + (u8.height - 1)) % u8.height) * u8.width +
          (1 + 1) % u8.width) = false ∧
        v.cells.get (1 * u8.width + 1) = false ∧
        v.cells.get (1 * u8.width + (1 + 1) % u8.width) = false) ∧
      ∀ r' c', r' < u8.height → c' < u8.width →
        ((r' ≠ (1 + (u8.height - 1)) % u8.height ∧ r' ≠ 1 ∧
            r' ≠ (1 + 1) % u8.height) ∨
          (c' ≠ (1 + (u8.width - 1)) % u8.width ∧ c' ≠ 1 ∧
            c' ≠ (1 + 1) % u8.width)) →
        v.cells.get (r' * u8.width + c') = u8.cells.get (r' * u8.width + c') :=
  claim_C5_amended u8 1 1 u8_wf (by decide) (by decide) (by decide) (by decide)

/-- C6 counterexample: `set_cells` on a well-formed 2×2 grid with the list
`[(0,0), (5,5)]` terminates abnormally at the out-of-range coordinate having
already set the earlier listed cell: the grid state observable at abnormal
termination differs from the pre-call state. -/
theorem claim_C6_cex :
    u22.wf ∧
    (u22.set_cells_trace [(0, 0), (5, 5)]).2 = false ∧
    (u22.set_cells_trace [(0, 0), (5, 5)]).1 ≠ u22 ∧
    (u22.set_cells_trace [(0, 0), (5, 5)]).1.cells.get 0 = true :=
  ⟨u22_wf, by decide, by decide, by decide⟩

/-- C6 amended: on a well-formed grid, `toggle_cell`, `tick`, `reset_random`
and `insert_glider_at_pos` fully complete for in-range inputs, `set_cells`
fully completes when every listed coordinate is in range, and `reset_clear`
always fully completes (one fixed-size pass clearing every cell); `toggle_cell`
with an out-of-range coordinate aborts before its single write, leaving the
grid state exactly as it was (no partial corruption).  But `set_cells` with
an out-of-range listed coordinate stops mid-list having written the earlier
coordinates, and `insert_pulsar_at_pos` can abort mid-footprint even for
in-range anchors. -/
theorem claim_C6_amended :
    (∀ (u : Universe) (row col : Nat), u.wf → row < u.height → col < u.width →
      ∃ v, u.toggle_cell row col = some v) ∧
    (∀ (u : Universe) (row col : Nat),
      ((u.toggle_cell_trace row col).2 = true →
        u.toggle_cell row col = some (u.toggle_cell_trace row col).1) ∧
      ((u.toggle_cell_trace row col).2 = false →
        (u.toggle_cell_trace row col).1 = u ∧ u.toggle_cell row col = none)) ∧
    (∀ u : Universe, u.reset_clear.width = u.width ∧
      u.reset_clear.height = u.height ∧
      u.reset_clear.cells.len = u.cells.len ∧
      u.reset_clear.temp_cells = u.temp_cells ∧
      ∀ i, u.reset_clear.cells.get i = false) ∧
    (∀ (u : Universe) (L : List (Nat × Nat)), u.wf →
      (∀ p ∈ L, p.1 < u.height ∧ p.2 < u.width) →
      ∃ v, u.set_cells L = some v) ∧
    (∀ u : Universe, u.wf → ∃ v, u.tick = some v) ∧
    (∀ (u : Universe) (rnd : Nat → Nat → Bool), u.wf →
      ∃ v, u.reset_random rnd = some v) ∧
    (∀ (u : Universe) (row col : Nat), u.wf → row < u.height → col < u.width →
      ∃ v, u.insert_glider_at_pos row col = some v) := by
  refine ⟨?_, ?_, ?_, ?_, ?_, ?_, ?_⟩
  · intro u row col hwf hr hc
    exact toggle_cell_isSome hwf hr hc
  · intro u row col
    unfold toggle_cell toggle_cell_trace
    rcases hs : u.cells.set (u.get_index row col)
        (!u.cells.get (u.get_index row col)) with _ | s
    · exact ⟨fun h => absurd h (by simp), fun _ => ⟨rfl, rfl⟩⟩
    · exact ⟨fun _ => rfl, fun h => absurd h (by simp)⟩
  · intro u
    exact ⟨rfl, rfl, FixedBitSet.len_set_range_false _, rfl,
      fun i => FixedBitSet.get_set_range_false _ i⟩
  · intro u L hwf hL
    obtain ⟨v, hv, _⟩ := set_cells_spec hwf hL
    exact ⟨v, hv⟩
  · intro u hwf
    obtain ⟨v, hv, _⟩ := tick_spec hwf
    exact ⟨v, hv⟩
  · intro u rnd hwf
    exact reset_random_isSome rnd hwf
  · intro u row col hwf hr hc
    exact glider_isSome hwf hr hc

theorem claim_C6_amended_witness :
    (∃ v, u22.toggle_cell 0 0 = some v) ∧
    ((u22.toggle_cell_trace 5 5).1 = u22 ∧ u22.toggle_cell 5 5 = none) ∧
    (u22.reset_clear.cells.get 0 = false) ∧
    (∃ v, u22.set_cells [(0, 0), (1, 1)] = some v) ∧
    (∃ v, u22.tick = some v) ∧
    (∃ v, u22.insert_glider_at_pos 0 0 = some v) :=
  ⟨claim_C6_amended.1 u22 0 0 u22_wf (by decide) (by decide),
    (claim_C6_amended.2.1 u22 5 5).2 (by decide),
    (claim_C6_amended.2.2.1 u22).2.2.2.2 0,
    claim_C6_amended.2.2.2.1 u22 [(0, 0), (1, 1)] u22_wf (by decide),
    claim_C6_amended.2.2.2.2.1 u22 u22_wf,
    claim_C6_amended.2.2.2.2.2.2 u22 0 0 u22_wf (by decide) (by decide)⟩

/-- C7: on a well-formed grid, `set_cells L` with all listed coordinates in
range completes; a cell is alive afterwards iff it was alive before or is
listed; running it a second time with the same list returns the same grid;
running it with any permutation of the list returns the same grid. -/
theorem claim_C7 (u : Universe) (L : List (Nat × Nat)) (hwf : u.wf)
    (hL : ∀ p ∈ L, p.1 < u.height ∧ p.2 < u.width) :
    ∃ v, u.set_cells L = some v ∧
      (∀ row col, row < u.height → col < u.width →
        (v.cells.get (row * u.width + col) = true ↔
          u.cells.get (row * u.width + col) = true ∨ (row, col) ∈ L)) ∧
      v.set_cells L = some v ∧
      ∀ L', L.Perm L' → u.set_cells L' = some v := by
  obtain ⟨hcl, htl, hM⟩ := hwf
  obtain ⟨v, hv, hvw, hvh, hvt, hvl, hvget⟩ := set_cells_spec ⟨hcl, htl, hM⟩ hL
  have hidx : ∀ r c : Nat, v.get_index r c = u.get_index r c := by
    intro r c
    unfold get_index
    rw [hvw]
  refine ⟨v, hv, ?_, ?_, ?_⟩
  · intro row col hrow hcol
    rw [hvget, Bool.or_eq_true]
    constructor
    · rintro (h | h)
      · exact Or.inl h
      · exact Or.inr ((set_cells_any_iff hM hL hrow hcol).mp h)
    · rintro (h | h)
      · exact Or.inl h
      · exact Or.inr ((set_cells_any_iff hM hL hrow hcol).mpr h)
  · have hvwf : v.wf := by
      refine ⟨?_, ?_, ?_⟩
      · rw [hvl, hcl, hvw, hvh]
      · rw [hvt, htl, hvw, hvh]
      · rw [hvw, hvh]
        exact hM
    have hLv : ∀ p ∈ L, p.1 < v.height ∧ p.2 < v.width := by
      intro p hp
      rw [hvw, hvh]
      exact hL p hp
    obtain ⟨v₂, hv₂, hv₂w, hv₂h, hv₂t, hv₂l, hv₂get⟩ := set_cells_spec hvwf hLv
    have hcells : v₂.cells = v.cells := by
      apply FixedBitSet.eq_of_get (by rw [hv₂l])
      intro i
      rw [hv₂get i, hvget i]
      have hany : (L.any fun rc => v.get_index rc.1 rc.2 == i) =
          (L.any fun rc => u.get_index rc.1 rc.2 == i) := by
        simp only [hidx]
      rw [hany, Bool.or_assoc, Bool.or_self]
    rw [hv₂]
    exact congrArg some (ext_fields hv₂w hv₂h hcells hv₂t)
  · intro L' hperm
    have hL' : ∀ p ∈ L', p.1 < u.height ∧ p.2 < u.width := fun p hp =>
      hL p (hperm.mem_iff.mpr hp)
    obtain ⟨v', hv', hv'w, hv'h, hv't, hv'l, hv'get⟩ :=
      set_cells_spec ⟨hcl, htl, hM⟩ hL'
    have hcells : v'.cells = v.cells := by
      apply FixedBitSet.eq_of_get (by rw [hv'l, hvl])
      intro i
      rw [hv'get i, hvget i]
      have hany : (L'.any fun rc => u.get_index rc.1 rc.2 == i) =
          (L.any fun rc => u.get_index rc.1 rc.2 == i) :=
        Bool.eq_iff_iff.mpr (by simp [List.any_eq_true, hperm.mem_iff])
      rw [hany]
    rw [hv']
    exact congrArg some
      (ext_fields (hv'w.trans hvw.symm) (hv'h.trans hvh.symm) hcells
        (hv't.trans hvt.symm))

theorem claim_C7_witness :
    ∃ v, u22.set_cells [(0, 1), (1, 0)] = some v ∧
      (∀ row col, row < u22.height → col < u22.width →
        (v.cells.get (row * u22.width + col) = true ↔
          u22.cells.get (row * u22.width + col) = true ∨
            (row, col) ∈ [(0, 1), (1, 0)])) ∧
      v.set_cells [(0, 1), (1, 0)] = some v ∧
      ∀ L', List.Perm [(0, 1), (1, 0)] L' → u22.set_cells L' = some v :=
  claim_C7 u22 [(0, 1), (1, 0)] u22_wf (by decide)

/-- The 5×5 blinker state: alive exactly at row 2, cols 1–3. -/
def blinker_row_bits : List Bool :=
  (List.range 25).map fun i => decide (i = 11 ∨ i = 12 ∨ i = 13)

/-- The 5×5 vertical blinker state: alive exactly at col 2, rows 1–3. -/
def blinker_col_bits : List Bool :=
  (List.range 25).map fun i => decide (i = 7 ∨ i = 12 ∨ i = 17)

/-- The horizontal blinker universe on a well-formed 5×5 grid. -/
def blinker_row : Universe :=
  { width := 5
    height := 5
    cells := ⟨blinker_row_bits⟩
    temp_cells := ⟨List.replicate 25 false⟩ }

/-- C8: on a 5×5 toroidal grid whose only alive cells are the horizontal
blinker at row 2, cols 1–3, one `tick` yields exactly the vertical line at
col 2, rows 1–3 (all other cells dead), and a second `tick` restores exactly
the original horizontal line. -/
theorem claim_C8 :
    blinker_row.tick =
      some { width := 5
             height := 5
             cells := ⟨blinker_col_bits⟩
             temp_cells := ⟨blinker_col_bits⟩ } ∧
    ({ width := 5
       height := 5
       cells := ⟨blinker_col_bits⟩
       temp_cells := ⟨blinker_col_bits⟩ } : Universe).tick =
      some { width := 5
             height := 5
             cells := blinker_row.cells
             temp_cells := blinker_row.cells } := by decide

/-- C9: `Universe::new()` builds a deterministic 256×256 grid with 65536
cells in which cell `i` is alive iff `i % 2 = 0` or `i % 7 = 0`. -/
theorem claim_C9 (i : Nat) (hi : i < 65536) :
    ∃ u, Universe.new = some u ∧ u.width = 256 ∧ u.height = 256 ∧
      u.cells.len = 65536 ∧ u.temp_cells.len = 65536 ∧
      (u.cells.get i = true ↔ (i % 2 = 0 ∨ i % 7 = 0)) ∧
      ∀ u₁ u₂, Universe.new = some u₁ → Universe.new = some u₂ → u₁ = u₂ := by
  obtain ⟨u, hu, hw, hh, hcl, htl, hseed⟩ := new_spec
  refine ⟨u, hu, hw, hh, hcl, htl, ?_, ?_⟩
  · rw [hseed i hi]
    simp [Bool.or_eq_true, beq_iff_eq]
  · intro u₁ u₂ h₁ h₂
    rw [h₁] at h₂
    exact Option.some.inj h₂

theorem claim_C9_witness :
    ∃ u, Universe.new = some u ∧ u.width = 256 ∧ u.height = 256 ∧
      u.cells.len = 65536 ∧ u.temp_cells.len = 65536 ∧
      (u.cells.get 0 = true ↔ (0 % 2 = 0 ∨ 0 % 7 = 0)) ∧
      ∀ u₁ u₂, Universe.new = some u₁ → Universe.new = some u₂ → u₁ = u₂ :=
  claim_C9 0 (by decide)

/-- C10: `set_width` / `set_height` reallocate only `cells` (to the new
`width * height`, as `u32`) and never `temp_cells`; after a resize whose new
`width * height` exceeds the scratch length, the next `tick` hits an
out-of-range scratch write and aborts; and any completed `tick` sets the
active buffer's length to the stale `temp_cells` length via `clone_from`,
not to `width * height`. -/
theorem claim_C10 :
    (∀ (u : Universe) (w : Nat),
      (u.set_width w).temp_cells = u.temp_cells ∧
      (u.set_width w).cells.len = wmul w u.height ∧
      (u.set_width w).width = w ∧ (u.set_width w).height = u.height) ∧
    (∀ (u : Universe) (h : Nat),
      (u.set_height h).temp_cells = u.temp_cells ∧
      (u.set_height h).cells.len = wmul u.width h ∧
      (u.set_height h).width = u.width ∧ (u.set_height h).height = h) ∧
    (∀ (u : Universe) (w : Nat),
      u.temp_cells.len < w * u.height → w * u.height ≤ U32MOD →
      (u.set_width w).tick = none) ∧
    (∀ (u : Universe) (h : Nat),
      u.temp_cells.len < u.width * h → u.width * h ≤ U32MOD →
      (u.set_height h).tick = none) ∧
    (∀ (u v : Universe), u.tick = some v → v.cells.len = u.temp_cells.len) ∧
    (∀ (u : Universe) (w : Nat) (v : Universe),
      (u.set_width w).tick = some v → v.cells.len = u.temp_cells.len) := by
  refine ⟨?_, ?_, ?_, ?_, ?_, ?_⟩
  · intro u w
    obtain ⟨h1, h2, h3, h4, _⟩ := set_width_spec u w
    exact ⟨h4, h3, h1, h2⟩
  · intro u h
    obtain ⟨h1, h2, h3, h4, _⟩ := set_height_spec u h
    exact ⟨h4, h3, h1, h2⟩
  · intro u w hlt hle
    obtain ⟨h1, h2, _, h4, _⟩ := set_width_spec u w
    apply tick_none_of_short_scratch
    · rw [h4, h1, h2]
      exact hlt
    · rw [h1, h2]
      exact hle
  · intro u h hlt hle
    obtain ⟨h1, h2, _, h4, _⟩ := set_height_spec u h
    apply tick_none_of_short_scratch
    · rw [h4, h1, h2]
      exact hlt
    · rw [h1, h2]
      exact hle
  · intro u v h
    exact (tick_len h).1
  · intro u w v h
    obtain ⟨_, _, _, h4, _⟩ := set_width_spec u w
    have h1 := (tick_len h).1
    rw [h1, h4]

theorem claim_C10_witness :
    ((u22.set_width 3).tick = none) ∧
    (({ width := 5
        height := 5
        cells := ⟨blinker_col_bits⟩
        temp_cells := ⟨blinker_col_bits⟩ } : Universe).cells.len =
      blinker_row.temp_cells.len) :=
  ⟨claim_C10.2.2.1 u22 3 (by decide) (by decide),
    claim_C10.2.2.2.2.1 blinker_row
      { width := 5
        height := 5
        cells := ⟨blinker_col_bits⟩
        temp_cells := ⟨blinker_col_bits⟩ } (by decide)⟩
